import Mathlib

/-!
Shallow embedding of the seqdedupe repository (`src/main.rs` and
`src/optimized.rs`) and proofs about its specification claims.

Modelling conventions:
* Rust `String` sequence data and file lines are modelled as `List Char`
  (Rust `char` and Lean `Char` are both Unicode scalar values).
* File paths and error-message text are Lean `String`s (they are only
  compared for equality, never traversed).
* `HashSet<String>` is modelled as a `List (List Char)` with set-semantics
  insertion (`hsInsert`): inserting an element already present is a no-op,
  and membership is list membership.
* A file is modelled at line granularity as `List (List Char)`, matching
  `BufRead::lines` (lines never contain a newline).
-/

/-- The FASTA record model (`struct FastaRecord`, identical in both
programs): a header line and the concatenated sequence. -/
structure FastaRecord where
  header : List Char
  sequence : List Char
  deriving DecidableEq, Repr

/-- Rust `char::to_ascii_uppercase`: ASCII lowercase letters (codepoints
97–122) are shifted down by 32 to their uppercase form; every other
character is returned unchanged. -/
def toAsciiUppercase (c : Char) : Char :=
  if 97 ≤ c.toNat ∧ c.toNat ≤ 122 then Char.ofNat (c.toNat - 32) else c

/-- The per-character mapping inside `reverse_complement` (identical in
`main.rs` lines 72–86 and `optimized.rs` lines 43–57): the character is
first ASCII-uppercased, then matched through the base-pairing table
A↔T, G↔C, with N and the gap character fixed; any other character is
returned as its ASCII-uppercased form. -/
def complementChar (c : Char) : Char :=
  if toAsciiUppercase c = 'A' then 'T'
  else if toAsciiUppercase c = 'T' then 'A'
  else if toAsciiUppercase c = 'G' then 'C'
  else if toAsciiUppercase c = 'C' then 'G'
  else if toAsciiUppercase c = 'N' then 'N'
  else if toAsciiUppercase c = '-' then '-'
  else toAsciiUppercase c

/-- `fn reverse_complement(sequence: &str) -> String`: the sequence is
iterated in reverse (`chars().rev()`) and each character is mapped through
`complementChar`. -/
def reverse_complement (s : List Char) : List Char :=
  s.reverse.map complementChar

/-- The DNA symbol alphabet of claim C4, in both letter cases: A, T, G, C,
N and the gap character. -/
def dnaAlphabet : List Char :=
  ['A', 'a', 'T', 't', 'G', 'g', 'C', 'c', 'N', 'n', '-']

/-- ASCII lowercase test (Rust `char::is_ascii_lowercase`): codepoints
97–122. -/
def isAsciiLower (c : Char) : Bool :=
  97 ≤ c.toNat && c.toNat ≤ 122

/-- A decidable under-approximation of the Unicode "lowercase letter"
property, used to state the C9 counterexample: ASCII a–z (97–122) and the
Greek small letters α–ω (945–969).  Every character in these ranges is a
lowercase letter in Unicode. -/
def isKnownLowercaseLetter (c : Char) : Bool :=
  (97 ≤ c.toNat && c.toNat ≤ 122) || (945 ≤ c.toNat && c.toNat ≤ 969)

theorem toNat_ofNat_of_valid {n : Nat} (h : n < 55296) : (Char.ofNat n).toNat = n := by
  have hv : n.isValidChar := Or.inl h
  rw [Char.ofNat, dif_pos hv]
  rfl

theorem isAsciiLower_toAsciiUppercase (c : Char) :
    isAsciiLower (toAsciiUppercase c) = false := by
  unfold toAsciiUppercase isAsciiLower
  split
  · next h =>
    rw [toNat_ofNat_of_valid (by omega)]
    have hlt : ¬(97 ≤ c.toNat - 32) := by omega
    simp [hlt]
  · next h =>
    simp only [Bool.and_eq_false_iff, decide_eq_false_iff_not]
    omega

theorem isAsciiLower_complementChar (c : Char) :
    isAsciiLower (complementChar c) = false := by
  unfold complementChar
  repeat' split
  all_goals first
    | decide
    | exact isAsciiLower_toAsciiUppercase c

/-- C4: for every string over the symbols A, T, G, C, N, `-` in arbitrary
letter case, applying `reverse_complement` twice yields the ASCII-uppercased
original string: reverse-complement is an involution up to case
normalization. -/
theorem reverse_complement_involution (s : List Char)
    (h : ∀ c ∈ s, c ∈ dnaAlphabet) :
    reverse_complement (reverse_complement s) = s.map toAsciiUppercase := by
  unfold reverse_complement
  rw [List.map_reverse, List.map_map, List.map_reverse, List.reverse_reverse]
  refine List.map_congr_left ?_
  intro a ha
  have hmem := h a ha
  simp only [dnaAlphabet, List.mem_cons, List.not_mem_nil, or_false] at hmem
  simp only [Function.comp_apply]
  rcases hmem with rfl | rfl | rfl | rfl | rfl | rfl | rfl | rfl | rfl | rfl | rfl <;> decide

/-- Witness for C4 at the concrete input "AcgTn-". -/
theorem reverse_complement_involution_witness :
    (∀ c ∈ (['A', 'c', 'g', 'T', 'n', '-'] : List Char), c ∈ dnaAlphabet) ∧
    reverse_complement (reverse_complement ['A', 'c', 'g', 'T', 'n', '-']) =
      (['A', 'c', 'g', 'T', 'n', '-'] : List Char).map toAsciiUppercase :=
  ⟨by decide, reverse_complement_involution _ (by decide)⟩

/-- C9 (amended): the output of `reverse_complement` never contains an ASCII
lowercase character.  (Non-ASCII characters are passed through with only
ASCII uppercasing applied, so non-ASCII lowercase letters can survive; see
the counterexample.) -/
theorem reverse_complement_no_ascii_lower (s : List Char) :
    ((reverse_complement s).all fun c => ! isAsciiLower c) = true := by
  simp only [List.all_eq_true, Bool.not_eq_true']
  intro c hc
  rcases List.mem_map.mp hc with ⟨a, _, rfl⟩
  exact isAsciiLower_complementChar a

/-- C9 counterexample: on the input consisting of the Greek small letter
sigma (a lowercase letter outside ASCII), `reverse_complement` returns the
character unchanged, so its output does contain a lowercase character. -/
theorem reverse_complement_lowercase_counterexample :
    reverse_complement ['σ'] = ['σ'] ∧
    ((reverse_complement ['σ']).any fun c => isKnownLowercaseLetter c) = true := by
  constructor
  · decide
  · decide

/-- `HashSet<String>::insert` on the seen-set model: inserting an element
that is already present leaves the set unchanged. -/
def hsInsert (s : List (List Char)) (x : List Char) : List (List Char) :=
  if x ∈ s then s else x :: s

/-- The loop body of `fn remove_exact_duplicates` (`main.rs` lines 88–116):
a record is a duplicate if its sequence is in the seen set, or, in DNA mode,
if its reverse complement is; otherwise it is kept and its sequence (plus
its reverse complement in DNA mode) is inserted before the next record. -/
def removeExactDuplicatesGo (isDna : Bool) :
    List FastaRecord → List (List Char) → List FastaRecord
  | [], _ => []
  | r :: rs, seen =>
    if r.sequence ∈ seen ∨ (isDna = true ∧ reverse_complement r.sequence ∈ seen) then
      removeExactDuplicatesGo isDna rs seen
    else
      r :: removeExactDuplicatesGo isDna rs
        (if isDna then hsInsert (hsInsert seen r.sequence) (reverse_complement r.sequence)
         else hsInsert seen r.sequence)

/-- `fn remove_exact_duplicates(records, is_dna)` from `main.rs`. -/
def remove_exact_duplicates (records : List FastaRecord) (isDna : Bool) : List FastaRecord :=
  removeExactDuplicatesGo isDna records []

/-- The exact-duplicate rule as worded in the specification (§4.6, claim
C2), as a definition to compare against the code: a record is kept iff its
sequence is not in the seen set at the time it is examined and, in DNA mode,
its reverse complement is not in the set either; a kept record's sequence
(plus its reverse complement in DNA mode) is inserted into the set before
the next record is examined. -/
def dedupeSpecGo (isDna : Bool) :
    List FastaRecord → List (List Char) → List FastaRecord
  | [], _ => []
  | r :: rs, seen =>
    if r.sequence ∉ seen ∧ (isDna = true → reverse_complement r.sequence ∉ seen) then
      r :: dedupeSpecGo isDna rs
        (if isDna then hsInsert (hsInsert seen r.sequence) (reverse_complement r.sequence)
         else hsInsert seen r.sequence)
    else dedupeSpecGo isDna rs seen

/-- The specification-worded exact-duplicate remover, started from the empty
seen set. -/
def dedupeSpec (records : List FastaRecord) (isDna : Bool) : List FastaRecord :=
  dedupeSpecGo isDna records []

theorem removeExactDuplicatesGo_eq_spec (isDna : Bool) (records : List FastaRecord)
    (seen : List (List Char)) :
    removeExactDuplicatesGo isDna records seen = dedupeSpecGo isDna records seen := by
  induction records generalizing seen with
  | nil => rfl
  | cons r rs ih =>
    simp only [removeExactDuplicatesGo, dedupeSpecGo]
    by_cases h : r.sequence ∈ seen ∨ (isDna = true ∧ reverse_complement r.sequence ∈ seen)
    · have h' : ¬(r.sequence ∉ seen ∧ (isDna = true → reverse_complement r.sequence ∉ seen)) := by
        tauto
      rw [if_pos h, if_neg h', ih]
    · have h' : r.sequence ∉ seen ∧ (isDna = true → reverse_complement r.sequence ∉ seen) := by
        tauto
      rw [if_neg h, if_pos h', ih]

theorem removeExactDuplicatesGo_sublist (isDna : Bool) (records : List FastaRecord)
    (seen : List (List Char)) :
    (removeExactDuplicatesGo isDna records seen).Sublist records := by
  induction records generalizing seen with
  | nil => simp [removeExactDuplicatesGo]
  | cons r rs ih =>
    simp only [removeExactDuplicatesGo]
    split
    · exact (ih _).cons _
    · exact (ih _).cons₂ _

/-- C2: exact-duplicate removal keeps exactly the records described by the
specification's seen-set rule (first occurrence kept, later equal sequences
— and, in DNA mode, reverse complements — dropped), and the kept records
form a sublist of the input, i.e. they appear in input order. -/
theorem remove_exact_duplicates_correct (records : List FastaRecord) (isDna : Bool) :
    remove_exact_duplicates records isDna = dedupeSpec records isDna ∧
    (remove_exact_duplicates records isDna).Sublist records :=
  ⟨removeExactDuplicatesGo_eq_spec isDna records [],
   removeExactDuplicatesGo_sublist isDna records []⟩

/-- Rust `str::trim`: remove leading and trailing whitespace.  Whitespace is
modelled by `Char.isWhitespace` (space, tab, carriage return, line feed),
which covers the whitespace that occurs in FASTA text. -/
def trim (l : List Char) : List Char :=
  List.rdropWhile Char.isWhitespace (l.dropWhile Char.isWhitespace)

/-- Rust `line.starts_with('>')` on a list of characters. -/
def startsWithGt : List Char → Bool
  | [] => false
  | c :: _ => c == '>'

theorem dropWhile_eq_cons_not {α : Type} {p : α → Bool} :
    ∀ {l : List α} {a : α} {as : List α}, l.dropWhile p = a :: as → p a = false := by
  intro l
  induction l with
  | nil =>
    intro a as h
    cases h
  | cons x xs ih =>
    intro a as h
    rw [List.dropWhile_cons] at h
    split at h
    · exact ih h
    · next hx =>
      injection h with h1 h2
      subst h1
      simpa using hx

theorem trim_head?_not_ws (l : List Char) (c : Char) (h : (trim l).head? = some c) :
    Char.isWhitespace c = false := by
  obtain ⟨t, ht⟩ := List.rdropWhile_prefix Char.isWhitespace (l.dropWhile Char.isWhitespace)
  cases htl : trim l with
  | nil =>
    rw [htl] at h
    cases h
  | cons a as =>
    have hca : a = c := by
      rw [htl] at h
      simpa using h
    subst hca
    unfold trim at htl
    rw [htl] at ht
    exact dropWhile_eq_cons_not ht.symm

theorem trim_getLast?_not_ws (l : List Char) (c : Char) (h : (trim l).getLast? = some c) :
    Char.isWhitespace c = false := by
  have hne : trim l ≠ [] := by
    intro h0
    rw [h0] at h
    cases h
  have h1 := List.rdropWhile_last_not Char.isWhitespace (l.dropWhile Char.isWhitespace)
    (by exact hne)
  rw [List.getLast?_eq_getLast_of_ne_nil hne] at h
  have hc : c = (trim l).getLast hne := by
    simpa using h.symm
  rw [hc]
  simpa using h1

theorem trim_eq_self_of (l : List Char)
    (hh : ∀ c, l.head? = some c → Char.isWhitespace c = false)
    (hl : ∀ c, l.getLast? = some c → Char.isWhitespace c = false) :
    trim l = l := by
  unfold trim
  have h1 : l.dropWhile Char.isWhitespace = l := by
    cases l with
    | nil => rfl
    | cons a as =>
      rw [List.dropWhile_cons, if_neg]
      simp [hh a rfl]
  rw [h1, List.rdropWhile_eq_self_iff]
  intro hne
  simp [hl (l.getLast hne) (List.getLast?_eq_getLast_of_ne_nil hne)]

theorem trim_trim (l : List Char) : trim (trim l) = trim l :=
  trim_eq_self_of (trim l) (trim_head?_not_ws l) (trim_getLast?_not_ws l)

/-- Invariant of a parsed header: it is its own trim and starts with a
greater-than sign (hence is nonempty). -/
def headerGood (h : List Char) : Prop :=
  trim h = h ∧ startsWithGt h = true

/-- Invariant of a parsed sequence: it is its own trim (it is a
concatenation of trimmed nonempty lines, or empty) and does not start with
a greater-than sign. -/
def seqGood (s : List Char) : Prop :=
  trim s = s ∧ startsWithGt s = false

theorem seqGood_nil : seqGood [] := by
  constructor
  · rfl
  · rfl

theorem seqGood_append (s t : List Char) (hs : seqGood s) (ht : trim t = t)
    (htne : t ≠ []) (htgt : startsWithGt t = false) : seqGood (s ++ t) := by
  obtain ⟨hs1, hs2⟩ := hs
  constructor
  · refine trim_eq_self_of _ ?_ ?_
    · intro c hc
      cases s with
      | nil =>
        rw [List.nil_append] at hc
        rw [← ht] at hc
        exact trim_head?_not_ws t c hc
      | cons a as =>
        have hca : a = c := by
          simpa using hc
        subst hca
        exact trim_head?_not_ws (a :: as) a (by rw [hs1]; rfl)
    · intro c hc
      rw [List.getLast?_append_of_ne_nil _ htne] at hc
      rw [← ht] at hc
      exact trim_getLast?_not_ws t c hc
  · cases s with
    | nil =>
      simpa using htgt
    | cons a as =>
      simpa [startsWithGt] using hs2

/-- Record invariant established by the parser and consumed by the
round-trip proof. -/
def recordGood (r : FastaRecord) : Prop :=
  headerGood r.header ∧ seqGood r.sequence

/-- The line loop of `fn parse_fasta` (`main.rs` lines 35–70), stated on
the trimmed-line state machine: `h` is the currently open header (empty if
none yet), `s` the sequence accumulated for it.  A line whose trim starts
with a greater-than sign finalizes any open record and opens a new one; a
nonempty non-header trimmed line is appended to the open sequence; empty
lines are ignored; at end of input an open record is finalized. -/
def parseLinesGo : List (List Char) → List Char → List Char → List FastaRecord
  | [], h, s => if h = [] then [] else [⟨h, s⟩]
  | line :: ls, h, s =>
    if startsWithGt (trim line) then
      if h = [] then parseLinesGo ls (trim line) []
      else ⟨h, s⟩ :: parseLinesGo ls (trim line) []
    else if trim line = [] then parseLinesGo ls h s
    else parseLinesGo ls h (s ++ trim line)

/-- `parse_fasta` on file content given as a list of lines. -/
def parse_fasta_lines (lines : List (List Char)) : List FastaRecord :=
  parseLinesGo lines [] []

/-- `fn write_fasta` (`main.rs` lines 152–169): for each record in order,
emit the header line then the single concatenated sequence line. -/
def write_fasta : List FastaRecord → List (List Char)
  | [] => []
  | r :: rs => r.header :: r.sequence :: write_fasta rs

theorem headerGood_trim_of_gt (line : List Char) (hgt : startsWithGt (trim line) = true) :
    headerGood (trim line) :=
  ⟨trim_trim line, hgt⟩

theorem parseLinesGo_good (ls : List (List Char)) (h s : List Char)
    (hh : h = [] ∨ headerGood h) (hs : seqGood s) :
    ∀ r ∈ parseLinesGo ls h s, recordGood r := by
  induction ls generalizing h s with
  | nil =>
    intro r hr
    simp only [parseLinesGo] at hr
    split at hr
    · cases hr
    · next hhne =>
      rcases hh with rfl | hgood
      · exact absurd rfl hhne
      · have : r = ⟨h, s⟩ := by
          simpa using hr
        rw [this]
        exact ⟨hgood, hs⟩
  | cons line ls ih =>
    intro r hr
    simp only [parseLinesGo] at hr
    by_cases hgt : startsWithGt (trim line) = true
    · rw [if_pos hgt] at hr
      split at hr
      · exact ih (trim line) [] (Or.inr (headerGood_trim_of_gt line hgt)) seqGood_nil r hr
      · next hhne =>
        rcases List.mem_cons.mp hr with hr0 | hr1
        · rcases hh with rfl | hgood
          · exact absurd rfl hhne
          · rw [hr0]
            exact ⟨hgood, hs⟩
        · exact ih (trim line) [] (Or.inr (headerGood_trim_of_gt line hgt)) seqGood_nil r hr1
    · rw [if_neg hgt] at hr
      by_cases hemp : trim line = []
      · rw [if_pos hemp] at hr
        exact ih h s hh hs r hr
      · rw [if_neg hemp] at hr
        refine ih h (s ++ trim line) hh ?_ r hr
        exact seqGood_append s (trim line) hs (trim_trim line) hemp
          (by simpa using hgt)

theorem headerGood_ne_nil {h : List Char} (hg : headerGood h) : h ≠ [] := by
  intro h0
  rw [h0] at hg
  cases hg.2

theorem parse_write_aux (rs : List FastaRecord) (h s : List Char)
    (hgood : ∀ r ∈ rs, recordGood r) (hh : headerGood h) :
    parseLinesGo (write_fasta rs) h s = ⟨h, s⟩ :: rs := by
  induction rs generalizing h s with
  | nil =>
    simp only [write_fasta, parseLinesGo, if_neg (headerGood_ne_nil hh)]
  | cons r rs ih =>
    have hr : recordGood r := hgood r (List.mem_cons_self r rs)
    have hrs : ∀ r' ∈ rs, recordGood r' := fun r' hr' => hgood r' (List.mem_cons_of_mem r hr')
    simp only [write_fasta, parseLinesGo]
    rw [hr.1.1]
    rw [if_pos hr.1.2, if_neg (headerGood_ne_nil hh)]
    congr 1
    rw [hr.2.1]
    by_cases hemp : r.sequence = []
    · rw [if_neg (by simp [hr.2.2]), if_pos hemp, ih r.header [] hrs hr.1]
      rw [← hemp]
    · rw [if_neg (by simp [hr.2.2]), if_neg hemp]
      rw [List.nil_append, ih r.header r.sequence hrs hr.1]

/-- C6: for any FASTA input (as a list of lines), re-parsing the output of
`write_fasta` applied to the parsed records yields exactly the same ordered
record list: the parse/write pair is a round trip, so the written (header,
concatenated-sequence) pairs are exactly those of the parsed records in
order. -/
theorem parse_write_roundtrip (lines : List (List Char)) :
    parse_fasta_lines (write_fasta (parse_fasta_lines lines)) = parse_fasta_lines lines := by
  have hgood := parseLinesGo_good lines [] [] (Or.inl rfl) seqGood_nil
  unfold parse_fasta_lines
  cases hp : parseLinesGo lines [] [] with
  | nil => rfl
  | cons r rs =>
    rw [hp] at hgood
    have hr : recordGood r := hgood r (List.mem_cons_self r rs)
    have hrs : ∀ r' ∈ rs, recordGood r' := fun r' hr' => hgood r' (List.mem_cons_of_mem r hr')
    simp only [write_fasta, parseLinesGo]
    rw [hr.1.1]
    rw [if_pos hr.1.2, if_pos trivial]
    rw [hr.2.1]
    by_cases hemp : r.sequence = []
    · rw [if_neg (by simp [hr.2.2]), if_pos hemp, parse_write_aux rs r.header [] hrs hr.1]
      rw [← hemp]
    · rw [if_neg (by simp [hr.2.2]), if_neg hemp]
      rw [List.nil_append, parse_write_aux rs r.header r.sequence hrs hr.1]

/-- Is `needle` a prefix of `hay`?  Helper for the substring test. -/
def isPrefixList : List Char → List Char → Bool
  | [], _ => true
  | _ :: _, [] => false
  | a :: as, b :: bs => a == b && isPrefixList as bs

/-- Rust `str::contains(&str)`: does `hay` contain `needle` as a contiguous
substring?  The empty needle is contained in every string. -/
def containsSeq : List Char → List Char → Bool
  | [], needle => needle.isEmpty
  | b :: bs, needle => isPrefixList needle (b :: bs) || containsSeq bs needle

theorem isPrefixList_length_le : ∀ (n h : List Char),
    isPrefixList n h = true → n.length ≤ h.length
  | [], _, _ => by simp
  | _ :: _, [], hp => by cases hp
  | a :: as, b :: bs, hp => by
    simp only [isPrefixList, Bool.and_eq_true] at hp
    simpa using isPrefixList_length_le as bs hp.2

theorem isPrefixList_eq_of_length : ∀ (n h : List Char),
    isPrefixList n h = true → n.length = h.length → n = h
  | [], [], _, _ => rfl
  | [], _ :: _, _, hl => by simp at hl
  | _ :: _, [], hp, _ => by cases hp
  | a :: as, b :: bs, hp, hl => by
    simp only [isPrefixList, Bool.and_eq_true, beq_iff_eq] at hp
    have htail := isPrefixList_eq_of_length as bs hp.2 (by simpa using hl)
    rw [hp.1, htail]

theorem isPrefixList_refl : ∀ (l : List Char), isPrefixList l l = true
  | [] => rfl
  | a :: as => by simp [isPrefixList, isPrefixList_refl as]

theorem containsSeq_length_le : ∀ (hay n : List Char),
    containsSeq hay n = true → n.length ≤ hay.length
  | [], n, hc => by
    simp only [containsSeq, List.isEmpty_iff] at hc
    simp [hc]
  | b :: bs, n, hc => by
    simp only [containsSeq, Bool.or_eq_true] at hc
    rcases hc with hc | hc
    · exact isPrefixList_length_le n (b :: bs) hc
    · exact le_trans (containsSeq_length_le bs n hc) (by simp)

theorem containsSeq_eq_of_length : ∀ (hay n : List Char),
    containsSeq hay n = true → n.length = hay.length → n = hay
  | [], n, hc, _ => by
    simp only [containsSeq, List.isEmpty_iff] at hc
    exact hc
  | b :: bs, n, hc, hl => by
    simp only [containsSeq, Bool.or_eq_true] at hc
    rcases hc with hc | hc
    · exact isPrefixList_eq_of_length n (b :: bs) hc hl
    · exfalso
      have hle := containsSeq_length_le bs n hc
      simp only [List.length_cons] at hl
      omega

theorem containsSeq_refl : ∀ (l : List Char), containsSeq l l = true
  | [] => rfl
  | a :: as => by simp [containsSeq, isPrefixList_refl (a :: as)]

theorem containsSeq_nil : ∀ (hay : List Char), containsSeq hay [] = true
  | [] => rfl
  | _ :: _ => by simp [containsSeq, isPrefixList]

/-- The comparator of `records.sort_by(|a, b| b.sequence.len().cmp(&a.sequence.len()))`:
descending sequence length. -/
def recLonger (a b : FastaRecord) : Prop :=
  b.sequence.length ≤ a.sequence.length

instance : DecidableRel recLonger := fun _ _ => Nat.decLe _ _

instance : IsTotal FastaRecord recLonger :=
  ⟨fun a b => le_total b.sequence.length a.sequence.length⟩

instance : IsTrans FastaRecord recLonger :=
  ⟨fun _ _ _ h1 h2 => le_trans h2 h1⟩

/-- Rust's stable `sort_by` on the descending-length comparator, modelled by
a stable sort (all stable sorts of a total preorder agree on their output,
so insertion sort is a faithful model of the standard library's merge
sort). -/
def sortByLenDesc (records : List FastaRecord) : List FastaRecord :=
  List.insertionSort recLonger records

/-- The inner loop of `fn remove_substring_sequences` (`main.rs` lines
127–142): the current sequence is subsumed if some already-kept record's
sequence contains it or, in DNA mode, contains its reverse complement. -/
def isSubstringOfKept (isDna : Bool) (kept : List FastaRecord) (cur : List Char) : Bool :=
  kept.any fun k => containsSeq k.sequence cur ||
    (isDna && containsSeq k.sequence (reverse_complement cur))

/-- The outer loop of `fn remove_substring_sequences`: iterate records in
sorted order, appending each non-subsumed record to the kept list. -/
def removeSubstringGo (isDna : Bool) : List FastaRecord → List FastaRecord → List FastaRecord
  | [], kept => kept
  | r :: rs, kept =>
    if isSubstringOfKept isDna kept r.sequence then removeSubstringGo isDna rs kept
    else removeSubstringGo isDna rs (kept ++ [r])

/-- `fn remove_substring_sequences(records, is_dna)` from `main.rs` lines
118–150: sort by descending sequence length, then keep each record that is
not subsumed by an already-kept one. -/
def remove_substring_sequences (records : List FastaRecord) (isDna : Bool) : List FastaRecord :=
  removeSubstringGo isDna (sortByLenDesc records) []

theorem isSubstringOfKept_false_elim {isDna : Bool} {kept : List FastaRecord}
    {cur : List Char} (h : ¬isSubstringOfKept isDna kept cur = true) :
    ∀ k ∈ kept, containsSeq k.sequence cur = false := by
  intro k hkk
  by_contra hc
  apply h
  simp only [isSubstringOfKept, List.any_eq_true]
  refine ⟨k, hkk, ?_⟩
  simp only [Bool.or_eq_true]
  exact Or.inl (by simpa using hc)

theorem removeSubstringGo_pairwise (isDna : Bool) :
    ∀ (rest kept : List FastaRecord),
    List.Pairwise (fun a b => containsSeq a.sequence b.sequence = false ∧
      containsSeq b.sequence a.sequence = false) kept →
    (∀ k ∈ kept, ∀ r ∈ rest, r.sequence.length ≤ k.sequence.length) →
    List.Pairwise recLonger rest →
    List.Pairwise (fun a b => containsSeq a.sequence b.sequence = false ∧
      containsSeq b.sequence a.sequence = false) (removeSubstringGo isDna rest kept)
  | [], kept, hk, _, _ => hk
  | r :: rs, kept, hk, hlen, hsorted => by
    simp only [removeSubstringGo]
    split
    · exact removeSubstringGo_pairwise isDna rs kept hk
        (fun k hkk r' hr' => hlen k hkk r' (List.mem_cons_of_mem r hr'))
        hsorted.of_cons
    · next hns =>
      have hnotc := isSubstringOfKept_false_elim hns
      refine removeSubstringGo_pairwise isDna rs (kept ++ [r]) ?_ ?_ hsorted.of_cons
      · rw [List.pairwise_append]
        refine ⟨hk, List.pairwise_singleton _ _, ?_⟩
        intro k hkk b hb
        have hbr : b = r := by simpa using hb
        subst hbr
        refine ⟨hnotc k hkk, ?_⟩
        by_contra hc
        have hc' : containsSeq b.sequence k.sequence = true := by
          simpa using hc
        have h1 : k.sequence.length ≤ b.sequence.length :=
          containsSeq_length_le _ _ hc'
        have h2 : b.sequence.length ≤ k.sequence.length :=
          hlen k hkk b (List.mem_cons_self b rs)
        have heq : k.sequence = b.sequence :=
          containsSeq_eq_of_length _ _ hc' (le_antisymm h1 h2)
        have := hnotc k hkk
        rw [heq, containsSeq_refl] at this
        cases this
      · intro k hkk r' hr'
        rcases List.mem_append.mp hkk with h | h
        · exact hlen k h r' (List.mem_cons_of_mem r hr')
        · have hkr : k = r := by simpa using h
          subst hkr
          exact (List.pairwise_cons.mp hsorted).1 r' hr'

/-- C5: in the output of the sequential substring remover, no retained
record's sequence is a literal substring of another retained record's
sequence (pairwise non-containment, in both directions). -/
theorem remove_substring_sequences_pairwise_noncontainment
    (records : List FastaRecord) (isDna : Bool) :
    List.Pairwise (fun a b => containsSeq a.sequence b.sequence = false ∧
      containsSeq b.sequence a.sequence = false)
      (remove_substring_sequences records isDna) := by
  unfold remove_substring_sequences
  refine removeSubstringGo_pairwise isDna (sortByLenDesc records) [] List.Pairwise.nil ?_ ?_
  · intro k hk
    exact absurd hk (List.not_mem_nil k)
  · exact List.sorted_insertionSort recLonger records

theorem removeSubstringGo_nonempty_seq (isDna : Bool) :
    ∀ (rest kept : List FastaRecord), kept ≠ [] → (∀ k ∈ kept, k.sequence ≠ []) →
    ∀ r ∈ removeSubstringGo isDna rest kept, r.sequence ≠ []
  | [], _, _, hk => hk
  | x :: rs, kept, hne, hk => by
    simp only [removeSubstringGo]
    split
    · exact removeSubstringGo_nonempty_seq isDna rs kept hne hk
    · next hns =>
      have hxne : x.sequence ≠ [] := by
        intro h0
        apply hns
        obtain ⟨k, hkk⟩ := List.exists_mem_of_ne_nil kept hne
        simp only [isSubstringOfKept, List.any_eq_true]
        exact ⟨k, hkk, by simp [h0, containsSeq_nil]⟩
      refine removeSubstringGo_nonempty_seq isDna rs (kept ++ [x]) (by simp) ?_
      intro k hkk
      rcases List.mem_append.mp hkk with h | h
      · exact hk k h
      · have hkx : k = x := by simpa using h
        rw [hkx]
        exact hxne

theorem removeSubstringGo_all_dropped (isDna : Bool) :
    ∀ (rest kept : List FastaRecord),
    (∀ r ∈ rest, isSubstringOfKept isDna kept r.sequence = true) →
    removeSubstringGo isDna rest kept = kept
  | [], _, _ => rfl
  | x :: rs, kept, h => by
    simp only [removeSubstringGo, if_pos (h x (List.mem_cons_self x rs))]
    exact removeSubstringGo_all_dropped isDna rs kept
      (fun r hr => h r (List.mem_cons_of_mem x hr))

/-- C10: if some input record has a nonempty sequence, the sequential
substring remover retains no record with an empty sequence (the
descending-length sort puts a nonempty record first, and every string
contains the empty string); if the input is nonempty and every record's
sequence is empty, exactly one record is kept. -/
theorem remove_substring_sequences_empty_seq (records : List FastaRecord) (isDna : Bool) :
    ((∃ r ∈ records, r.sequence ≠ []) →
      ∀ r ∈ remove_substring_sequences records isDna, r.sequence ≠ []) ∧
    (records ≠ [] → (∀ r ∈ records, r.sequence = []) →
      (remove_substring_sequences records isDna).length = 1) := by
  have hperm := List.perm_insertionSort recLonger records
  have hsorted := List.sorted_insertionSort recLonger records
  constructor
  · rintro ⟨r0, hr0, hr0ne⟩
    unfold remove_substring_sequences
    cases hs : sortByLenDesc records with
    | nil =>
      exfalso
      unfold sortByLenDesc at hs
      rw [hs] at hperm
      exact absurd (hperm.symm.mem_iff.mp hr0) (List.not_mem_nil r0)
    | cons x xs =>
      unfold sortByLenDesc at hs
      rw [hs] at hperm hsorted
      have hxlen : ∀ y ∈ x :: xs, y.sequence.length ≤ x.sequence.length := by
        intro y hy
        rcases List.mem_cons.mp hy with rfl | hy'
        · exact le_refl _
        · exact (List.pairwise_cons.mp hsorted).1 y hy'
      have hr0s : r0 ∈ x :: xs := hperm.symm.mem_iff.mp hr0
      have hxne : x.sequence ≠ [] := by
        intro h0
        have h1 := hxlen r0 hr0s
        rw [h0] at h1
        simp only [List.length_nil, Nat.le_zero, List.length_eq_zero] at h1
        exact hr0ne h1
      simp only [removeSubstringGo]
      rw [if_neg (by simp [isSubstringOfKept])]
      refine removeSubstringGo_nonempty_seq isDna xs [x] (by simp) ?_
      intro k hkk
      have hkx : k = x := by simpa using hkk
      rw [hkx]
      exact hxne
  · intro hne hall
    unfold remove_substring_sequences
    cases hs : sortByLenDesc records with
    | nil =>
      exfalso
      unfold sortByLenDesc at hs
      rw [hs] at hperm
      exact hne (List.length_eq_zero.mp hperm.length_eq.symm)
    | cons x xs =>
      unfold sortByLenDesc at hs
      rw [hs] at hperm
      have hdrop : ∀ r ∈ xs, isSubstringOfKept isDna [x] r.sequence = true := by
        intro r hr
        have hrrec : r ∈ records := hperm.mem_iff.mp (List.mem_cons_of_mem x hr)
        have hrs : r.sequence = [] := hall r hrrec
        simp only [isSubstringOfKept, List.any_eq_true]
        refine ⟨x, List.mem_cons_self x [], ?_⟩
        simp [hrs, containsSeq_nil]
      simp only [removeSubstringGo]
      rw [if_neg (by simp [isSubstringOfKept]), List.nil_append,
        removeSubstringGo_all_dropped isDna xs [x] hdrop]
      rfl

/-- Witness for C10 at concrete inputs: two records with empty sequences
collapse to exactly one kept record. -/
theorem remove_substring_sequences_empty_seq_witness :
    (remove_substring_sequences
      [⟨['>', 'a'], []⟩, ⟨['>', 'b'], []⟩] false).length = 1 :=
  (remove_substring_sequences_empty_seq [⟨['>', 'a'], []⟩, ⟨['>', 'b'], []⟩] false).2
    (by decide) (by decide)

/-- The chunk-size expression of `remove_substrings_parallel`
(`optimized.rs` line 239): `(records.len() / num_cores).max(1000)`. -/
def parChunkSize (n cores : Nat) : Nat :=
  max (n / cores) 1000

/-- Fuel-indexed splitting of a list into contiguous chunks of size
`max c 1` (the semantics of rayon's `par_chunks(c)`, which requires
`c ≥ 1`).  The fuel, initialised to the list length, serves structural
termination only and is never exhausted. -/
def chunkListGo {α : Type} (c : Nat) : Nat → List α → List (List α)
  | _, [] => []
  | 0, _ :: _ => []
  | fuel + 1, x :: xs =>
    ((x :: xs).take (max c 1)) :: chunkListGo c fuel ((x :: xs).drop (max c 1))

/-- `slice.par_chunks(c)` as a list of contiguous chunks. -/
def chunkList {α : Type} (c : Nat) (l : List α) : List (List α) :=
  chunkListGo c l.length l

theorem chunkListGo_nil {α : Type} (c : Nat) :
    ∀ fuel, chunkListGo (α := α) c fuel [] = []
  | 0 => rfl
  | _ + 1 => rfl

theorem chunkList_eq_single {α : Type} (c : Nat) (l : List α) (hne : l ≠ [])
    (hlen : l.length ≤ c) : chunkList c l = [l] := by
  cases l with
  | nil => exact absurd rfl hne
  | cons x xs =>
    unfold chunkList
    simp only [List.length_cons, chunkListGo]
    have hc1 : max c 1 = c := by
      simp only [List.length_cons] at hlen
      omega
    rw [hc1, List.take_of_length_le (by simpa using hlen),
      List.drop_eq_nil_of_le (by simpa using hlen), chunkListGo_nil]

/-- The per-record subsumption test of the parallel variant against a list
of kept sequences (`optimized.rs` lines 256–291).  Note the extra
`kept_seq != current_seq` guard on the plain containment check — absent
from the sequential variant — which is not applied to the
reverse-complement check. -/
def parIsSubstring (isDna : Bool) (seqs : List (List Char)) (cur : List Char) : Bool :=
  seqs.any fun ks => (!(ks == cur) && containsSeq ks cur) ||
    (isDna && containsSeq ks (reverse_complement cur))

/-- The body of one chunk task in `remove_substrings_parallel`
(`optimized.rs` lines 249–302): each record of the chunk is tested against
the global kept-sequence set, then against the chunk's local kept list; a
non-subsumed record's sequence is appended to the local list and the record
to the shared output list. -/
def processChunkGo (isDna : Bool) (g : List (List Char)) :
    List FastaRecord → List (List Char) → List FastaRecord →
    List (List Char) × List FastaRecord
  | [], localKept, outRecs => (localKept, outRecs)
  | r :: rs, localKept, outRecs =>
    if parIsSubstring isDna g r.sequence || parIsSubstring isDna localKept r.sequence then
      processChunkGo isDna g rs localKept outRecs
    else
      processChunkGo isDna g rs (localKept ++ [r.sequence]) (outRecs ++ [r])

/-- One chunk task followed by its end-of-chunk merge of the locally kept
sequences into the global kept set (`optimized.rs` lines 304–310). -/
def processChunkAndMerge (isDna : Bool) (st : List (List Char) × List FastaRecord)
    (chunk : List FastaRecord) : List (List Char) × List FastaRecord :=
  ((processChunkGo isDna st.1 chunk [] st.2).1.foldl hsInsert st.1,
   (processChunkGo isDna st.1 chunk [] st.2).2)

/-- `fn remove_substrings_parallel` (`optimized.rs` lines 189–335) under a
sequential chunk schedule: parse all records (same line loop as
`parse_fasta`), sort by descending sequence length, split into chunks of
`max(len / cores, 1000)` records, process the chunks, and output the shared
record list.  With `num_cores = 1` there is a single worker thread and —
since the chunk size is at least the record count — a single chunk, so the
sequential schedule is the exact semantics of the concurrent code. -/
def remove_substrings_parallel (lines : List (List Char)) (isDna : Bool)
    (cores : Nat) : List FastaRecord :=
  (((chunkList (parChunkSize (parse_fasta_lines lines).length cores)
      (sortByLenDesc (parse_fasta_lines lines))).foldl
    (processChunkAndMerge isDna) ([], [])).2)

theorem parIsSubstring_map_eq (isDna : Bool) :
    ∀ (kept : List FastaRecord) (cur : List Char),
    (∀ k ∈ kept, k.sequence ≠ cur) →
    parIsSubstring isDna (kept.map (fun k => k.sequence)) cur =
      isSubstringOfKept isDna kept cur
  | [], _, _ => rfl
  | k :: ks, cur, hne => by
    have hhead : (k.sequence == cur) = false := by
      simp only [beq_eq_false_iff_ne, ne_eq]
      exact hne k (List.mem_cons_self k ks)
    have htail := parIsSubstring_map_eq isDna ks cur
      (fun k' hk' => hne k' (List.mem_cons_of_mem k hk'))
    unfold parIsSubstring isSubstringOfKept
    simp only [List.map_cons, List.any_cons]
    unfold parIsSubstring isSubstringOfKept at htail
    rw [htail, hhead]
    simp

theorem processChunkGo_eq_sequential (isDna : Bool) :
    ∀ (rest kept : List FastaRecord),
    List.Pairwise (fun a b => a.sequence ≠ b.sequence) (kept ++ rest) →
    processChunkGo isDna [] rest (kept.map (fun k => k.sequence)) kept =
      ((removeSubstringGo isDna rest kept).map (fun k => k.sequence),
       removeSubstringGo isDna rest kept)
  | [], kept, _ => rfl
  | r :: rs, kept, hpw => by
    have hne : ∀ k ∈ kept, k.sequence ≠ r.sequence := by
      intro k hk
      exact (List.pairwise_append.mp hpw).2.2 k hk r (List.mem_cons_self r rs)
    have hglobal : parIsSubstring isDna [] r.sequence = false := rfl
    have hcond := parIsSubstring_map_eq isDna kept r.sequence hne
    simp only [processChunkGo, removeSubstringGo, hglobal, hcond, Bool.false_or]
    by_cases hsub : isSubstringOfKept isDna kept r.sequence = true
    · rw [if_pos hsub, if_pos hsub]
      refine processChunkGo_eq_sequential isDna rs kept ?_
      exact hpw.sublist (List.Sublist.append_left (List.sublist_cons_self r rs) kept)
    · rw [if_neg hsub, if_neg hsub]
      have hpw' : List.Pairwise (fun a b => a.sequence ≠ b.sequence) ((kept ++ [r]) ++ rs) := by
        rw [List.append_assoc, List.singleton_append]
        exact hpw
      have hres := processChunkGo_eq_sequential isDna rs (kept ++ [r]) hpw'
      rw [List.map_append] at hres
      simpa using hres

/-- C1 counterexample input: two records with identical sequences. -/
def dupLines : List (List Char) :=
  [['>', 'a'], ['A', 'C', 'G', 'T'], ['>', 'b'], ['A', 'C', 'G', 'T']]

/-- C1 counterexample: with `num_cores = 1`, on an input whose two records
have the same sequence, the parallel substring remover keeps both records
(its `kept_seq != current_seq` guard skips the self-equal containment
check) while the sequential remover keeps only the first — so the two
results differ even with one core. -/
theorem parallel_substring_num_cores_one_counterexample :
    remove_substrings_parallel dupLines false 1 ≠
      remove_substring_sequences (parse_fasta_lines dupLines) false ∧
    (remove_substrings_parallel dupLines false 1).length = 2 ∧
    (remove_substring_sequences (parse_fasta_lines dupLines) false).length = 1 := by
  refine ⟨by decide, by decide, by decide⟩

/-- C1 (amended): with `num_cores = 1`, on any input whose parsed records
have pairwise-distinct sequences (so the guard `kept_seq != current_seq`
never differs from the sequential test), the parallel substring remover
returns exactly the sequential substring remover's result — same records,
same order. -/
theorem parallel_substring_num_cores_one_eq_sequential (lines : List (List Char))
    (isDna : Bool)
    (hdist : List.Pairwise (fun a b => a.sequence ≠ b.sequence) (parse_fasta_lines lines)) :
    remove_substrings_parallel lines isDna 1 =
      remove_substring_sequences (parse_fasta_lines lines) isDna := by
  unfold remove_substrings_parallel remove_substring_sequences
  have hperm := List.perm_insertionSort recLonger (parse_fasta_lines lines)
  have hdists : List.Pairwise (fun a b => a.sequence ≠ b.sequence)
      (sortByLenDesc (parse_fasta_lines lines)) :=
    (List.Perm.pairwise_iff (fun h => h.symm) hperm).mpr hdist
  cases hs : sortByLenDesc (parse_fasta_lines lines) with
  | nil =>
    rw [hs] at hdists
    unfold parChunkSize
    rw [Nat.div_one]
    simp only [chunkList, List.length_nil, chunkListGo, List.foldl_nil]
    rfl
  | cons x xs =>
    rw [hs] at hdists
    have hlen : (x :: xs).length ≤ parChunkSize (parse_fasta_lines lines).length 1 := by
      unfold parChunkSize
      rw [Nat.div_one]
      have : (x :: xs).length = (parse_fasta_lines lines).length := by
        rw [← hs]
        exact (List.perm_insertionSort recLonger (parse_fasta_lines lines)).length_eq
      omega
    rw [chunkList_eq_single _ _ (by simp) hlen]
    simp only [List.foldl_cons, List.foldl_nil]
    unfold processChunkAndMerge
    have hmain := processChunkGo_eq_sequential isDna (x :: xs) [] (by simpa using hdists)
    simp only [List.map_nil] at hmain
    rw [hmain]

/-- A concrete input whose two parsed records have distinct sequences. -/
def distinctLines : List (List Char) :=
  [['>', 'a'], ['A', 'C', 'G', 'T'], ['>', 'b'], ['G', 'G']]

/-- Witness for the amended C1 at a concrete distinct-sequence input. -/
theorem parallel_substring_num_cores_one_eq_sequential_witness :
    remove_substrings_parallel distinctLines false 1 =
      remove_substring_sequences (parse_fasta_lines distinctLines) false :=
  parallel_substring_num_cores_one_eq_sequential distinctLines false (by decide)

/-- The seen-set update for one kept record (`seen_sequences.insert(...)`,
plus the reverse complement in DNA mode), shared by both exact-duplicate
removers. -/
def seenInsertRecord (isDna : Bool) (seen : List (List Char)) (s : List Char) :
    List (List Char) :=
  if isDna then hsInsert (hsInsert seen s) (reverse_complement s) else hsInsert seen s

/-- `fn process_batch` (`optimized.rs` lines 146–186): drain the batch in
order; each record is tested against the cumulative seen set exactly as in
`remove_exact_duplicates`, and kept records are written to the output
immediately.  Returns the written records (in order) and the updated seen
set. -/
def processBatchGo (isDna : Bool) :
    List FastaRecord → List (List Char) → List FastaRecord × List (List Char)
  | [], seen => ([], seen)
  | r :: rs, seen =>
    if r.sequence ∈ seen ∨ (isDna = true ∧ reverse_complement r.sequence ∈ seen) then
      processBatchGo isDna rs seen
    else
      (r :: (processBatchGo isDna rs (seenInsertRecord isDna seen r.sequence)).1,
       (processBatchGo isDna rs (seenInsertRecord isDna seen r.sequence)).2)

/-- The mutable state of `fn process_streaming_duplicates` (`optimized.rs`
lines 74–144): the cumulative seen set, the open header and sequence
buffer, the current batch buffer, and the records written so far. -/
structure StreamSt where
  seen : List (List Char)
  header : List Char
  seqBuf : List Char
  batch : List FastaRecord
  kept : List FastaRecord
  deriving DecidableEq, Repr

/-- One line of the streaming loop: a header line finalizes any open record
into the batch and flushes the batch through `process_batch` once it has
reached `batch_size` records; a nonempty non-header line extends the
sequence buffer; empty lines are ignored. -/
def streamStep (isDna : Bool) (batchSize : Nat) (st : StreamSt) (line : List Char) :
    StreamSt :=
  if startsWithGt (trim line) then
    if st.header ≠ [] then
      if batchSize ≤ (st.batch ++ [FastaRecord.mk st.header st.seqBuf]).length then
        { seen := (processBatchGo isDna (st.batch ++ [FastaRecord.mk st.header st.seqBuf]) st.seen).2,
          header := trim line, seqBuf := [], batch := [],
          kept := st.kept ++ (processBatchGo isDna (st.batch ++ [FastaRecord.mk st.header st.seqBuf]) st.seen).1 }
      else
        { st with
          header := trim line
          seqBuf := []
          batch := st.batch ++ [FastaRecord.mk st.header st.seqBuf] }
    else
      { st with header := trim line, seqBuf := [] }
  else if trim line ≠ [] then
    { st with seqBuf := st.seqBuf ++ trim line }
  else st

/-- End of input, first stage: a still-open record is pushed into the
batch. -/
def streamFinishRecord (st : StreamSt) : StreamSt :=
  if st.header ≠ [] then { st with batch := st.batch ++ [FastaRecord.mk st.header st.seqBuf] } else st

/-- End of input, second stage: a nonempty final batch is flushed
regardless of its size. -/
def streamFinishFlush (isDna : Bool) (st : StreamSt) : StreamSt :=
  if st.batch ≠ [] then
    { st with
      seen := (processBatchGo isDna st.batch st.seen).2
      batch := []
      kept := st.kept ++ (processBatchGo isDna st.batch st.seen).1 }
  else st

/-- `fn process_streaming_duplicates(filename, output, is_dna, batch_size)`
on file content given as a list of lines: fold the per-line step over the
input, then finalize the last record and flush the remaining batch. -/
def process_streaming_duplicates (lines : List (List Char)) (isDna : Bool)
    (batchSize : Nat) : StreamSt :=
  streamFinishFlush isDna
    (streamFinishRecord (lines.foldl (streamStep isDna batchSize) ⟨[], [], [], [], []⟩))

theorem processBatchGo_append (isDna : Bool) :
    ∀ (xs ys : List FastaRecord) (seen : List (List Char)),
    processBatchGo isDna (xs ++ ys) seen =
      ((processBatchGo isDna xs seen).1 ++
        (processBatchGo isDna ys (processBatchGo isDna xs seen).2).1,
       (processBatchGo isDna ys (processBatchGo isDna xs seen).2).2)
  | [], ys, seen => by simp [processBatchGo]
  | x :: xs, ys, seen => by
    simp only [List.cons_append, processBatchGo, List.append_eq]
    split
    · exact processBatchGo_append isDna xs ys seen
    · simp only [List.cons_append, Prod.mk.injEq, List.append_eq]
      rw [processBatchGo_append isDna xs ys (seenInsertRecord isDna seen x.sequence)]
      simp

theorem streamFinishRecord_of_nil (st : StreamSt) (h : st.header = []) :
    streamFinishRecord st = st := by
  unfold streamFinishRecord
  rw [if_neg (by simp [h])]

theorem streamFinishRecord_of_ne (st : StreamSt) (h : st.header ≠ []) :
    streamFinishRecord st =
      { st with batch := st.batch ++ [FastaRecord.mk st.header st.seqBuf] } := by
  unfold streamFinishRecord
  rw [if_pos h]

theorem streamFinishFlush_of_nil (isDna : Bool) (st : StreamSt) (h : st.batch = []) :
    streamFinishFlush isDna st = st := by
  unfold streamFinishFlush
  rw [if_neg (by simp [h])]

theorem streamFinishFlush_of_ne (isDna : Bool) (st : StreamSt) (h : st.batch ≠ []) :
    streamFinishFlush isDna st =
      { st with
        seen := (processBatchGo isDna st.batch st.seen).2
        batch := []
        kept := st.kept ++ (processBatchGo isDna st.batch st.seen).1 } := by
  unfold streamFinishFlush
  rw [if_pos h]

theorem streamRun_eq (isDna : Bool) (batchSize : Nat) (lines : List (List Char)) :
    ∀ st : StreamSt,
    ((streamFinishFlush isDna (streamFinishRecord
        (lines.foldl (streamStep isDna batchSize) st))).kept,
     (streamFinishFlush isDna (streamFinishRecord
        (lines.foldl (streamStep isDna batchSize) st))).seen) =
    (st.kept ++ (processBatchGo isDna
        (st.batch ++ parseLinesGo lines st.header st.seqBuf) st.seen).1,
     (processBatchGo isDna
        (st.batch ++ parseLinesGo lines st.header st.seqBuf) st.seen).2) := by
  induction lines with
  | nil =>
    intro st
    simp only [List.foldl_nil, parseLinesGo]
    by_cases hh : st.header = []
    · rw [streamFinishRecord_of_nil st hh, if_pos hh, List.append_nil]
      by_cases hb : st.batch = []
      · rw [streamFinishFlush_of_nil isDna st hb, hb]
        simp [processBatchGo]
      · rw [streamFinishFlush_of_ne isDna st hb]
    · rw [streamFinishRecord_of_ne st hh, if_neg hh]
      rw [streamFinishFlush_of_ne isDna _ (by simp)]
  | cons line ls ih =>
    intro st
    simp only [List.foldl_cons]
    by_cases hgt : startsWithGt (trim line) = true
    · by_cases hh : st.header = []
      · have hstep : streamStep isDna batchSize st line =
            { st with header := trim line, seqBuf := [] } := by
          unfold streamStep
          rw [if_pos hgt, if_neg (by simp [hh])]
        rw [hstep, ih]
        simp only [parseLinesGo]
        rw [if_pos hgt, if_pos hh]
      · by_cases hflush :
            batchSize ≤ (st.batch ++ [FastaRecord.mk st.header st.seqBuf]).length
        · have hstep : streamStep isDna batchSize st line =
              { seen := (processBatchGo isDna
                  (st.batch ++ [FastaRecord.mk st.header st.seqBuf]) st.seen).2
                header := trim line
                seqBuf := []
                batch := []
                kept := st.kept ++ (processBatchGo isDna
                  (st.batch ++ [FastaRecord.mk st.header st.seqBuf]) st.seen).1 } := by
            unfold streamStep
            rw [if_pos hgt, if_pos hh, if_pos hflush]
          rw [hstep, ih]
          simp only [parseLinesGo]
          rw [if_pos hgt, if_neg hh]
          have hsplit : st.batch ++
              (FastaRecord.mk st.header st.seqBuf :: parseLinesGo ls (trim line) []) =
              (st.batch ++ [FastaRecord.mk st.header st.seqBuf]) ++
                parseLinesGo ls (trim line) [] := by
            simp
          rw [hsplit, processBatchGo_append isDna
            (st.batch ++ [FastaRecord.mk st.header st.seqBuf])
            (parseLinesGo ls (trim line) [])]
          simp [List.append_assoc]
        · have hstep : streamStep isDna batchSize st line =
              { st with
                header := trim line
                seqBuf := []
                batch := st.batch ++ [FastaRecord.mk st.header st.seqBuf] } := by
            unfold streamStep
            rw [if_pos hgt, if_pos hh, if_neg hflush]
          rw [hstep, ih]
          simp only [parseLinesGo]
          rw [if_pos hgt, if_neg hh]
          simp [List.append_assoc]
    · by_cases hemp : trim line = []
      · have hstep : streamStep isDna batchSize st line = st := by
          unfold streamStep
          rw [if_neg (by simp [hgt]), if_neg (by simp [hemp])]
        rw [hstep, ih]
        simp only [parseLinesGo]
        rw [if_neg (by simp [hgt]), if_pos hemp]
      · have hstep : streamStep isDna batchSize st line =
            { st with seqBuf := st.seqBuf ++ trim line } := by
          unfold streamStep
          rw [if_neg (by simp [hgt]), if_pos hemp]
        rw [hstep, ih]
        simp only [parseLinesGo]
        rw [if_neg (by simp [hgt]), if_neg hemp]

theorem process_streaming_kept_seen (lines : List (List Char)) (isDna : Bool)
    (batchSize : Nat) :
    (process_streaming_duplicates lines isDna batchSize).kept =
      (processBatchGo isDna (parse_fasta_lines lines) []).1 ∧
    (process_streaming_duplicates lines isDna batchSize).seen =
      (processBatchGo isDna (parse_fasta_lines lines) []).2 := by
  have h := streamRun_eq isDna batchSize lines ⟨[], [], [], [], []⟩
  unfold process_streaming_duplicates parse_fasta_lines
  constructor
  · have h1 := congrArg Prod.fst h
    simpa using h1
  · have h2 := congrArg Prod.snd h
    simpa using h2

/-- C3: the streaming exact-duplicate processor keeps the same number of
records and accumulates the same seen-sequence set for any two batch sizes
drawn from 1, 2 and the total record count: the kept output does not depend
on how the input is split into batches. -/
theorem process_streaming_duplicates_batch_size_independent (lines : List (List Char))
    (isDna : Bool) (b1 b2 : Nat)
    (h1 : b1 = 1 ∨ b1 = 2 ∨ b1 = (parse_fasta_lines lines).length)
    (h2 : b2 = 1 ∨ b2 = 2 ∨ b2 = (parse_fasta_lines lines).length) :
    (process_streaming_duplicates lines isDna b1).kept.length =
      (process_streaming_duplicates lines isDna b2).kept.length ∧
    (process_streaming_duplicates lines isDna b1).seen =
      (process_streaming_duplicates lines isDna b2).seen := by
  constructor
  · rw [(process_streaming_kept_seen lines isDna b1).1,
      (process_streaming_kept_seen lines isDna b2).1]
  · rw [(process_streaming_kept_seen lines isDna b1).2,
      (process_streaming_kept_seen lines isDna b2).2]

/-- Witness for C3 at a concrete input with batch sizes 1 and 2. -/
theorem process_streaming_duplicates_batch_size_independent_witness :
    (process_streaming_duplicates dupLines false 1).kept.length =
      (process_streaming_duplicates dupLines false 2).kept.length ∧
    (process_streaming_duplicates dupLines false 1).seen =
      (process_streaming_duplicates dupLines false 2).seen :=
  process_streaming_duplicates_batch_size_independent dupLines false 1 2
    (Or.inl rfl) (Or.inr (Or.inl rfl))

/-- A model of the file system visible to the programs: a map from path to
file content (as a list of lines), with `none` meaning the path cannot be
opened. -/
def FS : Type := String → Option (List (List Char))

/-- The error value propagated by the programs (anyhow's error type):
either the underlying operating-system error of a failed `File::open`,
carrying the path that failed, or an error wrapped by `with_context`,
carrying the added context message. -/
inductive ProgError : Type where
  | ioOpen (path : String) : ProgError
  | withContext (msg : String) (inner : ProgError) : ProgError
  deriving DecidableEq, Repr

/-- Does the error carry, at some context layer, the message
`Failed to open file: <path>`? -/
def carriesOpenContext (e : ProgError) (path : String) : Bool :=
  match e with
  | .ioOpen _ => false
  | .withContext m inner =>
    (m == "Failed to open file: " ++ path) || carriesOpenContext inner path

/-- The path carried by the root I/O error of a propagated error. -/
def errRootPath : ProgError → String
  | .ioOpen p => p
  | .withContext _ inner => errRootPath inner

/-- `fn parse_fasta(filename)` (`main.rs` lines 35–70) including its file
opening: an open failure is wrapped by
`.with_context(|| format!("Failed to open file: {}", filename))` and
propagated with `?`; on success the line loop runs. -/
def parse_fasta (fs : FS) (filename : String) :
    Except ProgError (List FastaRecord) :=
  match fs filename with
  | none => .error (.withContext ("Failed to open file: " ++ filename) (.ioOpen filename))
  | some lines => .ok (parse_fasta_lines lines)

/-- The observable outcome of one program run: the result propagated to
the program entry point, and the content written to the output file if one
was created (`none` when no output file was ever created, including
stdout runs). -/
structure RunResult where
  result : Except ProgError Unit
  outFile : Option (List (List Char))
  deriving Repr

/-- `fn main` of `main.rs` (lines 171–192): parse the input (propagating
any error unchanged with `?`), remove exact duplicates, optionally remove
substrings, and only then write the result — the output file is created
only at this final step, and only when an output path was given. -/
def basic_main (fs : FS) (input : String) (output : Option String)
    (isDna substrFlag : Bool) : RunResult :=
  match parse_fasta fs input with
  | .error e => ⟨.error e, none⟩
  | .ok records =>
    match output with
    | some _ => ⟨.ok (), some (write_fasta
        (if substrFlag then
          remove_substring_sequences (remove_exact_duplicates records isDna) isDna
        else remove_exact_duplicates records isDna))⟩
    | none => ⟨.ok (), none⟩

/-- `fn main` of `optimized.rs` (lines 337–360): substring mode runs
`remove_substrings_parallel`, otherwise `process_streaming_duplicates`
runs; in both functions the input file is opened with a bare
`File::open(..)?` — no added context — strictly before the output file is
created, and any open error is propagated unchanged with `?`. -/
def optimized_main (fs : FS) (input : String) (output : Option String)
    (isDna substrFlag : Bool) (batchSize cores : Nat) : RunResult :=
  match fs input with
  | none => ⟨.error (.ioOpen input), none⟩
  | some lines =>
    if substrFlag then
      match output with
      | some _ => ⟨.ok (), some (write_fasta (remove_substrings_parallel lines isDna cores))⟩
      | none => ⟨.ok (), none⟩
    else
      match output with
      | some _ => ⟨.ok (), some (write_fasta
          (process_streaming_duplicates lines isDna batchSize).kept)⟩
      | none => ⟨.ok (), none⟩

/-- C7 counterexample: in the optimized program (streaming mode shown; the
parallel mode is identical), a failed open of the input file propagates the
raw I/O error, which carries no `Failed to open file:` context — so it is
not the case that both programs wrap open failures with that contextual
message. -/
theorem optimized_open_failure_no_context_counterexample :
    (optimized_main (fun _ => none) "input.fasta" none false false 10000 1).result =
      .error (.ioOpen "input.fasta") ∧
    carriesOpenContext (.ioOpen "input.fasta") "input.fasta" = false := by
  constructor
  · rfl
  · rfl

/-- C7 (amended): every failure to open the input file is propagated
unchanged to the program entry point; in the basic program it carries the
contextual message `Failed to open file: <path>` with the offending path,
while in the optimized program (both modes) the raw I/O error is
propagated with no added context. -/
theorem open_failure_error_reporting (fs : FS) (input : String)
    (output : Option String) (isDna substrFlag : Bool) (batchSize cores : Nat)
    (h : fs input = none) :
    (basic_main fs input output isDna substrFlag).result =
      .error (.withContext ("Failed to open file: " ++ input) (.ioOpen input)) ∧
    carriesOpenContext
      (.withContext ("Failed to open file: " ++ input) (.ioOpen input)) input = true ∧
    (optimized_main fs input output isDna substrFlag batchSize cores).result =
      .error (.ioOpen input) ∧
    carriesOpenContext (.ioOpen input) input = false := by
  refine ⟨?_, ?_, ?_, ?_⟩
  · unfold basic_main parse_fasta
    rw [h]
  · simp [carriesOpenContext]
  · unfold optimized_main
    rw [h]
  · rfl

/-- Witness for the amended C7 on a file system with no readable files. -/
theorem open_failure_error_reporting_witness :
    (basic_main (fun _ => none) "in.fa" none false false).result =
      .error (.withContext ("Failed to open file: " ++ "in.fa") (.ioOpen "in.fa")) ∧
    carriesOpenContext
      (.withContext ("Failed to open file: " ++ "in.fa") (.ioOpen "in.fa")) "in.fa" = true ∧
    (optimized_main (fun _ => none) "in.fa" none false false 10000 1).result =
      .error (.ioOpen "in.fa") ∧
    carriesOpenContext (.ioOpen "in.fa") "in.fa" = false :=
  open_failure_error_reporting (fun _ => none) "in.fa" none false false 10000 1 rfl

/-- Is the propagated result an error rooted at an I/O failure on the given
input path? -/
def resultIsInputError (r : Except ProgError Unit) (path : String) : Bool :=
  match r with
  | .error e => errRootPath e == path
  | .ok _ => false

/-- C8: for a non-existent input path, every mode of both programs ends in
an error rooted at the input-open failure (a non-zero exit) and no output
file is ever created or truncated: the input file is opened before any
output-file creation is attempted on every code path. -/
theorem missing_input_no_output_created (fs : FS) (input : String)
    (output : Option String) (isDna substrFlag : Bool) (batchSize cores : Nat)
    (h : fs input = none) :
    resultIsInputError (basic_main fs input output isDna substrFlag).result input = true ∧
    (basic_main fs input output isDna substrFlag).outFile = none ∧
    resultIsInputError
      (optimized_main fs input output isDna substrFlag batchSize cores).result input = true ∧
    (optimized_main fs input output isDna substrFlag batchSize cores).outFile = none := by
  refine ⟨?_, ?_, ?_, ?_⟩
  · unfold basic_main parse_fasta
    rw [h]
    simp [resultIsInputError, errRootPath]
  · unfold basic_main parse_fasta
    rw [h]
  · unfold optimized_main
    rw [h]
    simp [resultIsInputError, errRootPath]
  · unfold optimized_main
    rw [h]

/-- Witness for C8 on a file system with no readable files, with an output
path given and substring mode enabled. -/
theorem missing_input_no_output_created_witness :
    resultIsInputError
      (basic_main (fun _ => none) "in.fa" (some "out.fa") false true).result "in.fa" = true ∧
    (basic_main (fun _ => none) "in.fa" (some "out.fa") false true).outFile = none ∧
    resultIsInputError
      (optimized_main (fun _ => none) "in.fa" (some "out.fa") false true 10000 1).result
      "in.fa" = true ∧
    (optimized_main (fun _ => none) "in.fa" (some "out.fa") false true 10000 1).outFile = none :=
  missing_input_no_output_created (fun _ => none) "in.fa" (some "out.fa") false true 10000 1 rfl
